import Mathlib

/-!
Verification of the fetch-coordination and freshness-caching core of the
go-get-proxy program (src/proxy.go), as a shallow embedding in Lean 4.

Filesystem directories are modelled as lists of path components
(`Dir := List String`), the filesystem root being `[]` and the parent of a
directory its `dropLast`.  The marker-file state of the filesystem is a
function `Dir → Option Int` giving the modification time of the
`.go-get-proxy-last` marker in each directory (`none` when `os.Stat` fails,
i.e. no marker).  Clock instants and durations are integers.
-/

namespace GoGetProxy

/-- A directory path: its components from the filesystem root. -/
abbrev Dir := List String

/-- The freshness window `const newEnough = 1 * time.Minute` (proxy.go line
90); time is modelled in seconds. -/
def newEnough : Int := 60

/-- Whether the marker in `dir` exists and its age (`time.Now().Sub(fi.ModTime())`)
is below the freshness window — the condition tested for one directory in the
body of `isNewEnough`'s loop (proxy.go lines 94–95). -/
def freshAt (stat : Dir → Option Int) (now : Int) (dir : Dir) : Bool :=
  match stat dir with
  | some t => decide (now - t < newEnough)
  | none => false

/-- The freshness walk `isNewEnough` (proxy.go lines 92–103): starting at `dir`, while the path is
strictly longer than the source root (`len(dir) > len(goPathSrc)`, modelled by
component count `rootLen < dir.length`), stat the marker; if present and within
the window, return true; otherwise step to the parent (`filepath.Join(dir, "..")`,
i.e. `dropLast`).  When the loop condition fails, return false. -/
def isNewEnough (stat : Dir → Option Int) (now : Int) (rootLen : Nat) (dir : Dir) : Bool :=
  if h : rootLen < dir.length then
    match stat dir with
    | some t =>
        if now - t < newEnough then true
        else isNewEnough stat now rootLen dir.dropLast
    | none => isNewEnough stat now rootLen dir.dropLast
  else false
termination_by dir.length
decreasing_by
  all_goals simp only [List.length_dropLast]; omega

/-- One-step unfolding of `isNewEnough` in terms of `freshAt`. -/
theorem isNewEnough_unfold (stat : Dir → Option Int) (now : Int) (rootLen : Nat) (dir : Dir) :
    isNewEnough stat now rootLen dir =
      if rootLen < dir.length then
        (freshAt stat now dir || isNewEnough stat now rootLen dir.dropLast)
      else false := by
  rw [isNewEnough]
  by_cases h : rootLen < dir.length
  · simp only [h, dif_pos, if_pos, freshAt]
    cases hs : stat dir with
    | none => simp
    | some t =>
        by_cases ht : now - t < newEnough
        · simp [ht]
        · simp [ht]
  · simp [h]

/-- The upward walk of `isNewEnough` reports fresh exactly when some directory
on the chain from `dir` up to, but excluding, the source root (the length-`k`
head of `dir` for `rootLen < k ≤ dir.length`) carries a marker within the
freshness window. -/
theorem isNewEnough_iff (stat : Dir → Option Int) (now : Int) (rootLen : Nat) (dir : Dir) :
    isNewEnough stat now rootLen dir = true ↔
      ∃ k, rootLen < k ∧ k ≤ dir.length ∧ freshAt stat now (dir.take k) = true := by
  induction dir using List.reverseRecOn with
  | nil =>
      rw [isNewEnough_unfold]
      simp only [List.length_nil]
      constructor
      · intro h
        simp at h
      · rintro ⟨k, hk1, hk2, -⟩
        omega
  | append_singleton ys y ih =>
      rw [isNewEnough_unfold]
      rw [List.dropLast_concat]
      by_cases h : rootLen < (ys ++ [y]).length
      · simp only [h, if_pos, Bool.or_eq_true]
        constructor
        · rintro (hfresh | hrec)
          · refine ⟨(ys ++ [y]).length, h, le_refl _, ?_⟩
            rwa [List.take_length]
          · obtain ⟨k, hk1, hk2, hk3⟩ := (ih).mp hrec
            refine ⟨k, hk1, ?_, ?_⟩
            · simp only [List.length_append, List.length_singleton]
              omega
            · rwa [List.take_append_of_le_length hk2]
        · rintro ⟨k, hk1, hk2, hk3⟩
          by_cases hk : k ≤ ys.length
          · right
            exact ih.mpr ⟨k, hk1, hk, by rwa [List.take_append_of_le_length hk] at hk3⟩
          · left
            have hkeq : k = (ys ++ [y]).length := by
              simp only [List.length_append, List.length_singleton] at hk2 ⊢
              omega
            rwa [hkeq, List.take_length] at hk3
      · simp only [h, if_neg, not_false_iff]
        constructor
        · intro hfalse
          exact absurd hfalse (by simp)
        · rintro ⟨k, hk1, hk2, -⟩
          omega

/-- A marker-file state with a fresh marker only at the source root `["s"]`
itself (modification time 0). -/
def statRootOnly : Dir → Option Int := fun p => if p = ["s"] then some 0 else none

/-- C2: counterexample — the claim says the walk visits every directory up to
and including the source root.  With the source root `["s"]` (`rootLen = 1`)
carrying a fresh marker and the package directory `["s", "p"]` carrying none,
the source root (the length-1 head of the walked path, a directory the claim
says is visited) is fresh, yet `isNewEnough` reports false: the loop
`len(dir) > len(goPathSrc)` exits before ever examining the source root. -/
theorem isNewEnough_root_marker_ignored :
    isNewEnough statRootOnly 0 1 ["s", "p"] = false ∧
    (["s", "p"] : Dir).take 1 = ["s"] ∧
    freshAt statRootOnly 0 ["s"] = true := by
  refine ⟨?_, by decide, by decide⟩
  rw [isNewEnough_unfold]
  have h1 : freshAt statRootOnly 0 ["s", "p"] = false := by decide
  have h2 : isNewEnough statRootOnly 0 1 ["s"] = false := by
    rw [isNewEnough_unfold]
    simp
  simp [h1, h2]

/-- C2: amended — `isNewEnough` visits the directories on the upward chain
from the package directory strictly below the source root (the root itself,
and anything above it, is never examined), and returns true iff some visited
directory carries a marker whose age is within the freshness window. -/
theorem isNewEnough_fresh_iff_strictly_below_root
    (stat : Dir → Option Int) (now : Int) (rootLen : Nat) (dir : Dir) :
    isNewEnough stat now rootLen dir = true ↔
      ∃ k, rootLen < k ∧ k ≤ dir.length ∧ freshAt stat now (dir.take k) = true :=
  isNewEnough_iff stat now rootLen dir

/-- C3: (a) immediately after a `Stamp` (marker written with the current time)
on `dir` itself or on any ancestor `a` of `dir` strictly inside the managed
tree, `isNewEnough` reports fresh; (b) once at least the freshness window has
elapsed since every marker on `dir` and its ancestors inside the tree,
`isNewEnough` reports stale. -/
theorem fresh_after_stamp_and_stale_after_window :
    (∀ (stat : Dir → Option Int) (now : Int) (rootLen : Nat) (dir a : Dir),
        a <+: dir → rootLen < a.length →
        isNewEnough (fun p => if p = a then some now else stat p) now rootLen dir = true) ∧
    (∀ (stat : Dir → Option Int) (now : Int) (rootLen : Nat) (dir : Dir),
        (∀ k t, rootLen < k → k ≤ dir.length → stat (dir.take k) = some t →
          newEnough ≤ now - t) →
        isNewEnough stat now rootLen dir = false) := by
  constructor
  · intro stat now rootLen dir a ha hlen
    obtain ⟨tl, rfl⟩ := ha
    rw [isNewEnough_iff]
    refine ⟨a.length, hlen, by simp, ?_⟩
    rw [List.take_left]
    simp only [freshAt, if_pos rfl]
    simp [newEnough]
  · intro stat now rootLen dir hall
    cases h : isNewEnough stat now rootLen dir with
    | false => rfl
    | true =>
        exfalso
        obtain ⟨k, hk1, hk2, hk3⟩ := (isNewEnough_iff stat now rootLen dir).mp h
        unfold freshAt at hk3
        cases hs : stat (dir.take k) with
        | none => rw [hs] at hk3; simp at hk3
        | some t =>
            rw [hs] at hk3
            simp only [decide_eq_true_eq] at hk3
            have := hall k t hk1 hk2 hs
            omega

/-- Witness for C3 at concrete inputs: stamping `["s", "p"]` at time 5 makes it
fresh at time 5; a directory whose only marker is 100 seconds old is stale. -/
theorem fresh_after_stamp_and_stale_after_window_witness :
    isNewEnough (fun p => if p = (["s", "p"] : Dir) then some 5 else none) 5 1 ["s", "p"] = true ∧
    isNewEnough (fun p => if p = (["s"] : Dir) then some (0 : Int) else none) 100 0 ["s"] = false := by
  constructor
  · exact fresh_after_stamp_and_stale_after_window.1 (fun _ => none) 5 1 ["s", "p"] ["s", "p"]
      (List.prefix_refl _) (by decide)
  · refine fresh_after_stamp_and_stale_after_window.2 _ 100 0 ["s"] ?_
    intro k t hk1 hk2 hst
    simp only [List.length_singleton] at hk2
    have hk : k = 1 := by omega
    subst hk
    simp at hst
    simp only [newEnough]
    omega

/-- The VCS-root climb of `getPackage` (proxy.go lines 140–162).  `has d v`
models `dirHas(v)` at directory `d` (`os.Stat(filepath.Join(checkDir, v))`
succeeding on a directory).  The loop state is the tentative `root`, the
current `checkDir` and the sticky `svnSeen` flag; the initial call is
`getRoot has pkgPath pkgPath false`.  Stepping to the parent is `dropLast`;
the Go guard `checkDir == root` after the step (parent of the just-recorded
root equals it) is `checkDir.dropLast = checkDir`, which on component lists
holds exactly at the filesystem root `[]`. -/
def getRoot (has : Dir → String → Bool) (root checkDir : Dir) (svnSeen : Bool) :
    Except String Dir :=
  if has checkDir ".svn" = false ∧ svnSeen = true then Except.ok root
  else if has checkDir ".hg" || has checkDir ".git" || has checkDir ".bzr" then
    Except.ok checkDir
  else if h : checkDir.dropLast = checkDir then
    Except.error "confused; vcs file in root?"
  else getRoot has checkDir checkDir.dropLast (svnSeen || has checkDir ".svn")
termination_by checkDir.length
decreasing_by
  cases checkDir with
  | nil => simp at h
  | cons x xs => simp

/-- One-step unfolding of `getRoot`. -/
theorem getRoot_unfold (has : Dir → String → Bool) (root checkDir : Dir) (svnSeen : Bool) :
    getRoot has root checkDir svnSeen =
      if has checkDir ".svn" = false ∧ svnSeen = true then Except.ok root
      else if has checkDir ".hg" || has checkDir ".git" || has checkDir ".bzr" then
        Except.ok checkDir
      else if checkDir.dropLast = checkDir then
        Except.error "confused; vcs file in root?"
      else getRoot has checkDir checkDir.dropLast (svnSeen || has checkDir ".svn") := by
  rw [getRoot]
  simp only [dite_eq_ite]

theorem dropLast_ne_self {l : Dir} (h : l ≠ []) : l.dropLast ≠ l := by
  intro he
  have : l.dropLast.length = l.length := by rw [he]
  rw [List.length_dropLast] at this
  have : l.length = 0 := by omega
  exact h (List.length_eq_zero.mp this)

/-- A directory layout with legacy `.svn` metadata at the two ancestor levels
`["a", "b", "c"]` and `["a", "b"]`, and a modern `.git` marker above them at
`["a"]`. -/
def hasC4 : Dir → String → Bool := fun p s =>
  if (p = ["a", "b", "c"] ∧ s = ".svn") ∨ (p = ["a", "b"] ∧ s = ".svn") ∨
      (p = ["a"] ∧ s = ".git") then true
  else false

/-- C4: counterexample — starting at `["a", "b", "c", "d"]` with `.svn` at two
ancestor levels followed by a `.git`-marked directory above them, the climb
does NOT continue to the modern-VCS-marked directory `["a"]`: it stops at the
first directory without legacy metadata and returns the last legacy-marked
directory `["a", "b"]`. -/
theorem getRoot_two_legacy_then_modern :
    getRoot hasC4 ["a", "b", "c", "d"] ["a", "b", "c", "d"] false = Except.ok ["a", "b"] ∧
    hasC4 ["a"] ".git" = true ∧ (["a", "b"] : Dir) ≠ ["a"] := by
  refine ⟨?_, by decide, by decide⟩
  rw [getRoot_unfold, if_neg (by decide), if_neg (by decide), if_neg (by decide)]
  show getRoot hasC4 ["a", "b", "c", "d"] ["a", "b", "c"] false = Except.ok ["a", "b"]
  rw [getRoot_unfold, if_neg (by decide), if_neg (by decide), if_neg (by decide)]
  show getRoot hasC4 ["a", "b", "c"] ["a", "b"] true = Except.ok ["a", "b"]
  rw [getRoot_unfold, if_neg (by decide), if_neg (by decide), if_neg (by decide)]
  show getRoot hasC4 ["a", "b"] ["a"] true = Except.ok ["a", "b"]
  rw [getRoot_unfold, if_pos (by decide)]

/-- C4: amended — the climb records a sticky legacy flag: (a) at the first
directory without legacy `.svn` metadata after the flag was set, it stops and
returns the previously recorded root (the last legacy-marked directory), even
if that directory or a higher one carries a modern-VCS marker; (b) at a
directory with legacy metadata and no modern marker it continues upward with
the flag set, recording the directory as the tentative root. -/
theorem getRoot_legacy_rules :
    (∀ (has : Dir → String → Bool) (root checkDir : Dir),
        has checkDir ".svn" = false →
        getRoot has root checkDir true = Except.ok root) ∧
    (∀ (has : Dir → String → Bool) (root checkDir : Dir) (svnSeen : Bool),
        has checkDir ".svn" = true →
        has checkDir ".hg" = false → has checkDir ".git" = false →
        has checkDir ".bzr" = false → checkDir ≠ [] →
        getRoot has root checkDir svnSeen = getRoot has checkDir checkDir.dropLast true) := by
  constructor
  · intro has root checkDir hsvn
    rw [getRoot_unfold]
    simp [hsvn]
  · intro has root checkDir svnSeen hsvn hhg hgit hbzr hne
    rw [getRoot_unfold]
    simp [hsvn, hhg, hgit, hbzr, dropLast_ne_self hne]

/-- Witness for C4's amended rules at concrete inputs. -/
theorem getRoot_legacy_rules_witness :
    getRoot (fun _ _ => false) ["r"] ["r", "x"] true = Except.ok ["r"] ∧
    getRoot hasC4 ["z"] ["a", "b"] false = getRoot hasC4 ["a", "b"] ["a"] true := by
  constructor
  · exact getRoot_legacy_rules.1 (fun _ _ => false) ["r"] ["r", "x"] rfl
  · exact getRoot_legacy_rules.2 hasC4 ["z"] ["a", "b"] false (by decide) (by decide)
      (by decide) (by decide) (by decide)

/-- In a tree with no version-control metadata anywhere, the climb tops out at
the filesystem root (parent equal to itself) and fails. -/
theorem getRoot_no_vcs (has : Dir → String → Bool) (hno : ∀ p s, has p s = false) :
    ∀ (checkDir root : Dir),
      getRoot has root checkDir false = Except.error "confused; vcs file in root?" := by
  intro checkDir
  induction checkDir using List.reverseRecOn with
  | nil =>
      intro root
      rw [getRoot_unfold]
      simp [hno]
  | append_singleton ys y ih =>
      intro root
      rw [getRoot_unfold]
      have hne : (ys ++ [y] : Dir) ≠ [] := by simp
      simp [hno, List.dropLast_concat, dropLast_ne_self hne, ih]

/-- A directory-tree entry as seen by `filepath.Walk`: a file, or a directory
with a name, a `broken` flag (the walk's `err != nil` for that entry — e.g.
its directory listing failed) and its children.  Paths produced by the walk
are relative: the walk of the root entry `e` yields `[e.name]` for the root
itself and `e.name :: …` below it. -/
inductive Entry : Type where
  | dir (name : String) (broken : Bool) (children : List Entry)
  | file (name : String)

/-- The version-control metadata directory names of the `switch` in the walk
function (proxy.go line 170). -/
def vcsNames : List String := [".svn", ".hg", ".git", ".bzr"]

/-- The `filepath.Walk` of `getPackage` (proxy.go lines 165–176), returning
the list of directories in which a freshness marker is touched.  The walk
function returns nil on an error or a non-directory (no marker, no descent),
returns `filepath.SkipDir` for a directory named as VCS metadata (no marker,
no descent, siblings continue), and otherwise touches the marker and
descends. -/
def walkStamp : Entry → List Dir
  | .file _ => []
  | .dir n broken children =>
      if broken then []
      else if vcsNames.contains n then []
      else [n] :: children.attach.flatMap (fun c => (walkStamp c.1).map (fun q => n :: q))
termination_by e => sizeOf e
decreasing_by
  have := List.sizeOf_lt_of_mem c.2
  simp only [Entry.dir.sizeOf_spec]
  omega

/-- Specification of which relative paths receive a marker, following the
spec's words: the root and every directory reachable below it, except that
the walk never enters (nor stamps) a directory named as VCS metadata, and an
entry in error is skipped (with its subtree) rather than aborting the walk. -/
inductive Stamped : Entry → Dir → Prop where
  | here {n : String} {cs : List Entry} :
      vcsNames.contains n = false → Stamped (.dir n false cs) [n]
  | child {n : String} {cs : List Entry} {c : Entry} {q : Dir} :
      vcsNames.contains n = false → c ∈ cs → Stamped c q →
      Stamped (.dir n false cs) (n :: q)

theorem mem_walkStamp (e : Entry) : ∀ p : Dir, p ∈ walkStamp e ↔ Stamped e p := by
  induction e using walkStamp.induct with
  | case1 name =>
      intro p
      simp only [walkStamp, List.not_mem_nil, false_iff]
      intro h
      cases h
  | case2 n children =>
      intro p
      rw [walkStamp, if_pos rfl]
      simp only [List.not_mem_nil, false_iff]
      intro h
      cases h
  | case3 n broken children hb hv =>
      intro p
      have hb' : broken = false := by
        cases broken
        · rfl
        · exact absurd rfl hb
      subst hb'
      rw [walkStamp, if_neg (by simp : ¬(false = true)), if_pos hv]
      simp only [List.not_mem_nil, false_iff]
      intro h
      cases h with
      | here hn => rw [hv] at hn; cases hn
      | child hn _ _ => rw [hv] at hn; cases hn
  | case4 n broken children hb hv ih =>
      intro p
      have hb' : broken = false := by
        cases broken
        · rfl
        · exact absurd rfl hb
      subst hb'
      have hv' : vcsNames.contains n = false := by
        cases hcc : vcsNames.contains n
        · rfl
        · exact absurd hcc hv
      rw [walkStamp]
      rw [if_neg (by simp : ¬(false = true)), if_neg hv]
      constructor
      · intro hp
        rcases List.mem_cons.mp hp with hp | hp
        · subst hp
          exact Stamped.here hv'
        · rcases List.mem_flatMap.mp hp with ⟨c, hc, hpc⟩
          rcases List.mem_map.mp hpc with ⟨q, hq, rfl⟩
          exact Stamped.child hv' (by simpa using c.2) ((ih c q).mp hq)
      · intro hs
        cases hs with
        | here _ => exact List.mem_cons_self _ _
        | @child _ _ c q _ hc hq =>
            refine List.mem_cons.mpr (Or.inr ?_)
            refine List.mem_flatMap.mpr ⟨⟨c, hc⟩, List.mem_attach _ _, ?_⟩
            exact List.mem_map.mpr ⟨q, (ih ⟨c, hc⟩ q).mpr hq, rfl⟩

theorem Stamped_no_vcs {e : Entry} {q : Dir} (h : Stamped e q) :
    ∀ v ∈ vcsNames, v ∉ q := by
  induction h with
  | here hn =>
      intro v hv hvq
      rcases List.mem_singleton.mp hvq with rfl
      simp at hn
      exact hn hv
  | child hn hc hs ih =>
      intro v hv hvq
      rcases List.mem_cons.mp hvq with rfl | hvq
      · simp at hn
        exact hn hv
      · exact ih v hv hvq

/-- C5: the subtree stamper writes a marker exactly in the root and every
directory reachable below it whose chain from the root avoids broken entries
and VCS-metadata names (`Stamped`), and in particular no stamped path ever
contains a VCS-metadata directory name; broken entries are skipped (their
subtree is dropped) while the rest of the walk proceeds. -/
theorem walkStamp_characterization :
    (∀ (e : Entry) (p : Dir), p ∈ walkStamp e ↔ Stamped e p) ∧
    (∀ (e : Entry) (p : Dir), p ∈ walkStamp e → ∀ v ∈ vcsNames, v ∉ p) := by
  constructor
  · exact fun e p => mem_walkStamp e p
  · intro e p hp v hv
    exact Stamped_no_vcs ((mem_walkStamp e p).mp hp) v hv

/-- A tree with a `.git` metadata directory, a broken subdirectory and a
normal subdirectory under the root. -/
def treeC5 : Entry :=
  .dir "r" false
    [.dir ".git" false [.dir "x" false []],
     .dir "bad" true [.dir "y" false []],
     .dir "sub" false []]

/-- Witness for C5 at a concrete tree: the normal subdirectory is stamped
even though a sibling is broken, and its path avoids VCS names. -/
theorem walkStamp_characterization_witness :
    Stamped treeC5 ["r", "sub"] ∧ (".git" : String) ∉ (["r", "sub"] : Dir) := by
  have hmem : (["r", "sub"] : Dir) ∈ walkStamp treeC5 := by
    simp [walkStamp, treeC5, vcsNames]
  exact ⟨(walkStamp_characterization.1 treeC5 ["r", "sub"]).mp hmem,
    walkStamp_characterization.2 treeC5 ["r", "sub"] hmem ".git" (by decide)⟩

/-- The externally observable side effects of one `getPackage` call, in
order: a lookup/occupation of the per-key gate, a run of the external
`go get -u -d <pkg>` command, a touch of a freshness marker file. -/
inductive Event : Type where
  | gateOp (pkg : String)
  | runCmd (pkg : String)
  | touch (dir : Dir)
deriving DecidableEq

/-- Splitting a character list at `'/'` (accumulating the current component
reversed), used to model a slash-separated key's path components. -/
def splitSlash (cur : List Char) : List Char → List String
  | [] => [String.mk cur.reverse]
  | c :: rest =>
      if c = '/' then String.mk cur.reverse :: splitSlash [] rest
      else splitSlash (c :: cur) rest

/-- The path components appended to the source root by
`filepath.Join(goPathSrc, filepath.FromSlash(pkg))` (proxy.go line 106):
the slash-separated components of the key, and nothing for the empty key
(`filepath.Join(root, "")` is `root`). -/
def splitPkg (pkg : String) : List String :=
  if pkg = "" then [] else splitSlash [] pkg.toList

/-- The world a `getPackage` call runs against: marker modification times
(`stat`), VCS metadata presence (`hasDir`), the directory tree found at a
path when the stamping walk starts (`tree`, `none` when `lstat` fails), the
current time, the source root `goPathSrc`, and the external command's
outcome per key (`runGoGet pkg = (failure?, combinedOutput)`). -/
structure Env where
  stat : Dir → Option Int
  hasDir : Dir → String → Bool
  tree : Dir → Option Entry
  now : Int
  srcRoot : Dir
  runGoGet : String → Option String × String

/-- Directories stamped by `filepath.Walk(root, …)` (proxy.go lines 165–176):
the relative paths of `walkStamp` re-anchored at `root` (whose own path ends
in the root entry's name). -/
def stampTree (tree : Dir → Option Entry) (root : Dir) : List Dir :=
  match tree root with
  | none => []
  | some e => (walkStamp e).map (fun q => root.dropLast ++ q)

/-- The fetch coordinator `getPackage` (proxy.go lines 105–179): compute the package directory; if
it is new enough, return it with no side effect at all; otherwise acquire the
per-key gate, run `go get`; on failure return the formatted error embedding
the key, the failure and the output; on success locate the VCS root and stamp
its subtree, then return the package directory.  The second component is the
ordered list of observable side effects. -/
def getPackage (env : Env) (pkg : String) : Except String Dir × List Event :=
  let pkgPath := env.srcRoot ++ splitPkg pkg
  if isNewEnough env.stat env.now env.srcRoot.length pkgPath then
    (Except.ok pkgPath, [])
  else
    match env.runGoGet pkg with
    | (some errMsg, out) =>
        (Except.error ("Error running go get for package \"" ++ pkg ++ "\": " ++ errMsg ++
            "\n\nOutput:\n" ++ out),
         [Event.gateOp pkg, Event.runCmd pkg])
    | (none, _) =>
        match getRoot env.hasDir pkgPath pkgPath false with
        | Except.error e => (Except.error e, [Event.gateOp pkg, Event.runCmd pkg])
        | Except.ok root =>
            (Except.ok pkgPath,
             [Event.gateOp pkg, Event.runCmd pkg] ++ (stampTree env.tree root).map Event.touch)

/-- C6: when the marker store reports the package directory fresh,
`getPackage` returns it immediately with no error and an empty effect list:
no command run, no marker written, no gate lookup or occupation. -/
theorem getPackage_fast_path (env : Env) (pkg : String)
    (h : isNewEnough env.stat env.now env.srcRoot.length (env.srcRoot ++ splitPkg pkg) = true) :
    getPackage env pkg = (Except.ok (env.srcRoot ++ splitPkg pkg), []) := by
  unfold getPackage
  simp [h]

/-- C7: when the external command fails, `getPackage` returns exactly the
formatted error text — the literal message with the package key, the
underlying failure and the captured combined output embedded in it — and its
effects contain no marker touch (root location and stamping never run). -/
theorem getPackage_cmd_failure (env : Env) (pkg errMsg out : String)
    (hfresh : isNewEnough env.stat env.now env.srcRoot.length
      (env.srcRoot ++ splitPkg pkg) = false)
    (hcmd : env.runGoGet pkg = (some errMsg, out)) :
    (getPackage env pkg).1 =
      Except.error ("Error running go get for package \"" ++ pkg ++ "\": " ++ errMsg ++
        "\n\nOutput:\n" ++ out) ∧
    ∀ d, Event.touch d ∉ (getPackage env pkg).2 := by
  unfold getPackage
  simp [hfresh, hcmd]

/-- C8: when the command succeeds but the tree carries no version-control
metadata anywhere, the upward climb tops out at the filesystem root (parent
equal to itself) and `getPackage` returns the confusion error, not a
directory. -/
theorem getPackage_confused_layout (env : Env) (pkg out : String)
    (hfresh : isNewEnough env.stat env.now env.srcRoot.length
      (env.srcRoot ++ splitPkg pkg) = false)
    (hcmd : env.runGoGet pkg = (none, out))
    (hno : ∀ p s, env.hasDir p s = false) :
    getRoot env.hasDir (env.srcRoot ++ splitPkg pkg) (env.srcRoot ++ splitPkg pkg) false =
      Except.error "confused; vcs file in root?" ∧
    (getPackage env pkg).1 = Except.error "confused; vcs file in root?" := by
  have hg := getRoot_no_vcs env.hasDir hno (env.srcRoot ++ splitPkg pkg)
    (env.srcRoot ++ splitPkg pkg)
  refine ⟨hg, ?_⟩
  unfold getPackage
  simp [hfresh, hcmd, hg]

/-- The marker stamper `touchFile` (proxy.go lines 181–187) acting on one directory's marker
state (`old` = the marker's modification time, `none` = no marker):
`os.Remove(name)` first (its failure ignored; on failure the old file
remains), then `os.Create(name)` (its failure ignored; on success the marker
exists with the current time).  The function's Go signature returns nothing:
no error can be reported. -/
def touchFile (old : Option Int) (removeFails createFails : Bool) (now : Int) : Option Int :=
  let afterRemove := if removeFails then old else none
  if createFails then afterRemove else some now

/-- C9: `touchFile` deletes then recreates the marker, ignoring failures of
either step: when create succeeds the marker carries the current time; when
the remove succeeded but the create fails, the directory is left with no
marker at all — the previous timestamp is destroyed, not preserved; when both
steps fail the old state persists.  In every case no error is reported (the
return type carries only the marker state). -/
theorem touchFile_remove_then_create :
    (∀ (old : Option Int) (removeFails : Bool) (now : Int),
        touchFile old removeFails false now = some now) ∧
    (∀ (t now : Int), touchFile (some t) false true now = none) ∧
    (∀ (t now : Int), touchFile (some t) false true now ≠ some t) ∧
    (∀ (old : Option Int) (now : Int), touchFile old true true now = old) := by
  refine ⟨fun old rF now => rfl, fun t now => rfl, fun t now => by simp [touchFile],
    fun old now => rfl⟩

/-- Go `path.Split(p)`: split after the final slash; with no slash the
directory part is empty. -/
def goSplit (cs : List Char) : List Char × List Char :=
  if '/' ∈ cs then
    (cs.take (cs.length - cs.reverse.indexOf '/'),
     cs.drop (cs.length - cs.reverse.indexOf '/'))
  else ([], cs)

/-- Go slicing `s[lo:hi]`: defined when `0 ≤ lo ≤ hi ≤ len(s)`, a run-time
panic (`none`) otherwise. -/
def goSlice (cs : List Char) (lo hi : Nat) : Option (List Char) :=
  if lo ≤ hi ∧ hi ≤ cs.length then some ((cs.take hi).drop lo) else none

/-- Go `strings.HasSuffix(file, ".go")`. -/
def hasGoSuffix (cs : List Char) : Bool := cs.reverse.take 3 = ['o', 'g', '.']

/-- The package-key and file-name derivation of the request handler
(proxy.go lines 49–56): `pkg := upath[1:]`; `dir, file := path.Split(upath)`;
if `file` ends in `.go` then `pkg = dir[1 : len(dir)-1]` — a slice that can
panic — else the file name is dropped.  `none` models the handler panicking
before `getPackage` is ever invoked. -/
def parsePkgFile (upath : List Char) : Option (List Char × List Char) :=
  let pkg := upath.drop 1
  let df := goSplit upath
  if hasGoSuffix df.2 then
    match goSlice df.1 1 (df.1.length - 1) with
    | some p => some (p, df.2)
    | none => none
  else some (pkg, [])

/-- With no marker anywhere, the upward freshness walk always fails. -/
theorem isNewEnough_of_no_marker (stat : Dir → Option Int) (now : Int) (rootLen : Nat)
    (dir : Dir) (h : ∀ p, stat p = none) : isNewEnough stat now rootLen dir = false := by
  cases hh : isNewEnough stat now rootLen dir with
  | false => rfl
  | true =>
      obtain ⟨k, -, -, h3⟩ := (isNewEnough_iff stat now rootLen dir).mp hh
      unfold freshAt at h3
      rw [h] at h3
      cases h3

/-- A world whose package directory `["s", "p"]` carries a fresh marker. -/
def envC6 : Env :=
  ⟨fun p => if p = ["s", "p"] then some 0 else none, fun _ _ => false, fun _ => none, 0,
   ["s"], fun _ => (none, "")⟩

/-- Witness for C6: with a fresh marker on the package directory, the call
returns it with an empty effect list. -/
theorem getPackage_fast_path_witness :
    getPackage envC6 "p" = (Except.ok ["s", "p"], []) :=
  getPackage_fast_path envC6 "p"
    ((isNewEnough_iff envC6.stat envC6.now envC6.srcRoot.length
        (envC6.srcRoot ++ splitPkg "p")).mpr ⟨2, by decide, by decide, by decide⟩)

/-- A world with no markers whose external command fails. -/
def envC7 : Env :=
  ⟨fun _ => none, fun _ _ => false, fun _ => none, 0, ["s"],
   fun _ => (some "exit status 1", "fetch failed")⟩

/-- Witness for C7: the failure error text at a concrete world, and no marker
touch among the effects. -/
theorem getPackage_cmd_failure_witness :
    (getPackage envC7 "p").1 =
      Except.error ("Error running go get for package \"" ++ "p" ++ "\": " ++
        "exit status 1" ++ "\n\nOutput:\n" ++ "fetch failed") ∧
    Event.touch ["s", "p"] ∉ (getPackage envC7 "p").2 := by
  have h := getPackage_cmd_failure envC7 "p" "exit status 1" "fetch failed"
    (isNewEnough_of_no_marker _ _ _ _ (fun _ => rfl)) rfl
  exact ⟨h.1, h.2 ["s", "p"]⟩

/-- A world with no markers and no VCS metadata whose external command
succeeds. -/
def envC8 : Env :=
  ⟨fun _ => none, fun _ _ => false, fun _ => none, 0, ["s"], fun _ => (none, "fetched")⟩

/-- Witness for C8: with no VCS metadata anywhere, the climb errors and so
does the call. -/
theorem getPackage_confused_layout_witness :
    getRoot envC8.hasDir (envC8.srcRoot ++ splitPkg "p") (envC8.srcRoot ++ splitPkg "p")
      false = Except.error "confused; vcs file in root?" ∧
    (getPackage envC8 "p").1 = Except.error "confused; vcs file in root?" :=
  getPackage_confused_layout envC8 "p" "fetched"
    (isNewEnough_of_no_marker _ _ _ _ (fun _ => rfl)) rfl (fun _ _ => rfl)

/-- Witness for C9 at concrete marker states and times. -/
theorem touchFile_remove_then_create_witness :
    touchFile none false false 7 = some 7 ∧
    touchFile (some 3) false true 7 = none ∧
    touchFile (some 3) false true 7 ≠ some 3 := by
  exact ⟨touchFile_remove_then_create.1 none false 7,
    touchFile_remove_then_create.2.1 3 7,
    touchFile_remove_then_create.2.2.1 3 7⟩

theorem goSplit_head_slash (rest : List Char) (h : '/' ∉ rest) :
    goSplit ('/' :: rest) = (['/'], rest) := by
  unfold goSplit
  rw [if_pos (List.mem_cons_self _ _)]
  have hidx : (('/' :: rest).reverse).indexOf '/' = rest.length := by
    rw [List.reverse_cons]
    rw [List.indexOf_append_of_not_mem (by simpa using h)]
    simp
  rw [hidx]
  have hlen : ('/' :: rest).length - rest.length = 1 := by simp
  rw [hlen]
  simp

theorem hasGoSuffix_append (name : List Char) :
    hasGoSuffix (name ++ ".go".toList) = true := by
  simp only [hasGoSuffix, decide_eq_true_eq]
  show ((name ++ ['.', 'g', 'o']).reverse).take 3 = ['o', 'g', '.']
  rw [List.reverse_append]
  show ((['o', 'g', '.'] : List Char) ++ name.reverse).take 3 = ['o', 'g', '.']
  rw [show (3 : Nat) = (['o', 'g', '.'] : List Char).length from rfl, List.take_left]

/-- C10: counterexample — the claim says a request for `/NAME.go` derives the
empty package key.  It does not: `path.Split` yields `dir = "/"`, and the
slice `dir[1 : len(dir)-1]` has bounds `[1:0]`, an out-of-range string slice,
so the handler panics (`none`) instead of producing any key at all. -/
theorem parse_top_level_go_file_panics :
    parsePkgFile ("/NAME.go".toList) = none ∧
    parsePkgFile ("/NAME.go".toList) ≠ some (([] : List Char), "NAME.go".toList) := by
  refine ⟨by decide, ?_⟩
  intro hf
  rw [show parsePkgFile ("/NAME.go".toList) = none by decide] at hf
  cases hf

/-- C10: amended — for every request path of the form `/NAME.go` with no
intervening directory component, the handler's slice `dir[1 : len(dir)-1]`
is evaluated with `dir = "/"`, i.e. bounds `[1:0]`: the handler panics and
`getPackage` is never invoked for such a request (no key is derived, no
retrieval runs). -/
theorem parse_top_level_go_file_always_panics (name : List Char) (h : '/' ∉ name) :
    parsePkgFile ('/' :: (name ++ ".go".toList)) = none := by
  have hrest : '/' ∉ name ++ ".go".toList := by
    intro hc
    rcases List.mem_append.mp hc with hc | hc
    · exact h hc
    · simp at hc
  have hsplit := goSplit_head_slash (name ++ ".go".toList) hrest
  simp only [parsePkgFile, hsplit, hasGoSuffix_append, if_pos]
  rfl

/-- Witness for C10's amended claim at a concrete name. -/
theorem parse_top_level_go_file_always_panics_witness :
    parsePkgFile ('/' :: ("x".toList ++ ".go".toList)) = none :=
  parse_top_level_go_file_always_panics "x".toList (by decide)

end GoGetProxy
